import Mathlib

/-!
Verification development for the File Duplicate Organizer.

The repository ships the React/TypeScript frontend (`src/App.tsx`); the
Rust engine behind the Tauri commands `scan_folder`, `get_file_preview`
and `delete_files` is not part of the shipped sources, so the engine is
modelled from the specification (each such definition is marked
`Modelled from the spec:`).  The frontend helpers (`formatSize`,
`selectAllButOne`, `executeDelete`'s group update, `loadPreview`) are
embedded directly from `src/App.tsx`.
-/

namespace App

/-- Wire type `FileInfo` from `src/App.tsx` (path, name, size, hash, extension). -/
structure FileInfo where
  path : String
  name : String
  size : Nat
  hash : String
  extension : String
deriving DecidableEq, Repr

/-- Wire type `DuplicateGroup` from `src/App.tsx` (hash, size, files). -/
structure DuplicateGroup where
  hash : String
  size : Nat
  files : List FileInfo
deriving DecidableEq, Repr

/-- Wire type `FilePreview` from `src/App.tsx` (preview_type, content, file_path). -/
structure FilePreview where
  preview_type : String
  content : String
  file_path : String
deriving DecidableEq, Repr

/-- Wire type `DeleteResult` from `src/App.tsx`: `deleted` paths and
`failed` entries (path paired with an error message). -/
structure DeleteResult where
  deleted : List String
  failed : List (String × String)
deriving DecidableEq, Repr

/-- The unit array `["B", "KB", "MB", "GB"]` of `formatSize` in `src/App.tsx`. -/
def formatSizeUnits : List String := ["B", "KB", "MB", "GB"]

/-- The unit index `Math.floor(Math.log(bytes) / Math.log(1024))` computed by
`formatSize`, with the real-valued logarithm modelled exactly:
`Nat.log 1024 bytes` is the floor of the base-1024 logarithm for `bytes ≥ 1`. -/
def sizeUnitIndex (bytes : Nat) : Nat := Nat.log 1024 bytes

/-- The unit rendered by `formatSize` in `src/App.tsx`: `"B"` for zero bytes,
otherwise `units[i]`, which is an out-of-bounds (undefined) access — modelled
as `none` — whenever the computed index falls outside the unit array. -/
def formatSizeUnit (bytes : Nat) : Option String :=
  if bytes = 0 then some "B" else formatSizeUnits[sizeUnitIndex bytes]?

/-- The loop of `selectAllButOne` in `src/App.tsx` that finds
`maxSizeFileIndex`: starting from index 0 with `maxSize = files[0].size`,
an index replaces the current maximum only on a strictly larger size. -/
def maxIdxAux : List FileInfo → Nat → Nat → Nat → Nat
  | [], _, maxIdx, _ => maxIdx
  | f :: rest, i, maxIdx, maxSize =>
    if maxSize < f.size then maxIdxAux rest (i + 1) i f.size
    else maxIdxAux rest (i + 1) maxIdx maxSize

/-- Index of the file kept unselected by `selectAllButOne` in `src/App.tsx`:
the first index of maximum size within the group's file list. -/
def maxSizeFileIndex : List FileInfo → Nat
  | [] => 0
  | f :: rest => maxIdxAux rest 1 0 f.size

/-- The `forEach((file, index))` of `selectAllButOne` in `src/App.tsx`:
collect the path of every file whose index differs from `m`. -/
def selectExcept (m : Nat) : List FileInfo → Nat → List String
  | [], _ => []
  | f :: rest, i =>
    if i = m then selectExcept m rest (i + 1)
    else f.path :: selectExcept m rest (i + 1)

/-- Paths contributed by one group in `selectAllButOne` of `src/App.tsx`:
nothing for groups of fewer than two files, otherwise every path except
the one at `maxSizeFileIndex`. -/
def selectGroupPaths (g : DuplicateGroup) : List String :=
  if 1 < g.files.length then selectExcept (maxSizeFileIndex g.files) g.files 0
  else []

/-- `selectAllButOne` from `src/App.tsx`, as the list of selected paths
(the source accumulates them into a `Set`; membership is what matters). -/
def selectAllButOne (groups : List DuplicateGroup) : List String :=
  groups.flatMap selectGroupPaths

/-- The group update of `executeDelete` in `src/App.tsx` (lines 209-216):
remove deleted paths from every group's file list, then keep only groups
with at least two remaining files. -/
def updateGroupsAfterDelete (groups : List DuplicateGroup)
    (deletedPaths : List String) : List DuplicateGroup :=
  (groups.map fun g =>
    { g with files := g.files.filter fun f => ¬ f.path ∈ deletedPaths }).filter
    fun g => 2 ≤ g.files.length

/-- `loadPreview` from `src/App.tsx` (lines 186-197): a transport failure
(`none`) is mapped to an `"unsupported"` preview that keeps the requested
path; a delivered result is used as-is. -/
def loadPreview (transport : String → Option FilePreview) (path : String) :
    FilePreview :=
  match transport path with
  | some r => r
  | none => ⟨"unsupported", "プレビューの読み込みに失敗しました", path⟩

/-- The display invariant on a duplicate group held by the frontend:
at least two members, every member has the group's size, and (in strict
mode) every member carries the group's hash. -/
def GroupInv (strict : Bool) (g : DuplicateGroup) : Prop :=
  2 ≤ g.files.length ∧
    ∀ f ∈ g.files, f.size = g.size ∧ (strict = true → f.hash = g.hash)

instance (strict : Bool) (g : DuplicateGroup) : Decidable (GroupInv strict g) :=
  inferInstanceAs (Decidable (2 ≤ g.files.length ∧
    ∀ f ∈ g.files, f.size = g.size ∧ (strict = true → f.hash = g.hash)))

end App

namespace Engine

/-- Modelled from the spec: a `FileRecord` produced by the File Walker
(`path`, `name`, `size`, `extension`), extended with the byte content the
Content Hasher would read (`none` models an entry-local I/O failure at
hashing time, §7).  The Rust engine itself is not among the shipped
sources. -/
structure FileRecord where
  path : String
  name : String
  size : Nat
  extension : String
  content : Option (List Nat)
deriving DecidableEq, Repr

/-- Modelled from the spec: a digest is either the size-only-mode sentinel
meaning "not content-verified" or a cryptographic content hash; the hash is
modelled as the content itself, which makes it collision-free (the spec
assumes a 256-bit cryptographic digest, §4.2). -/
inductive Digest where
  | sentinel
  | sha (bytes : List Nat)
deriving DecidableEq, Repr

/-- Modelled from the spec: the engine-side `DuplicateGroup`
(`digest`, `size`, `files`, §3). -/
structure DuplicateGroup where
  digest : Digest
  size : Nat
  files : List FileRecord
deriving DecidableEq, Repr

/-- Modelled from the spec: the Content Hasher's digest of a byte content
(§4.2), collision-free by construction. -/
def hashContent (c : List Nat) : Digest := Digest.sha c

/-- Modelled from the spec: the distinct sizes appearing among the scanned
files — the keys of Stage-1 size bucketing (§4.3). -/
def sizeKeys (files : List FileRecord) : List Nat :=
  (files.map (·.size)).dedup

/-- Modelled from the spec: the Stage-1 size bucket for size `s` — all
scanned files of exactly that size (§4.3). -/
def bucketFor (files : List FileRecord) (s : Nat) : List FileRecord :=
  files.filter fun f => f.size = s

/-- Modelled from the spec: size-only mode turns a bucket of at least two
members directly into a group whose digest is the sentinel (§4.3). -/
def sizeOnlyGroup (files : List FileRecord) (s : Nat) : Option DuplicateGroup :=
  let b := bucketFor files s
  if 2 ≤ b.length then some ⟨Digest.sentinel, s, b⟩ else none

/-- Modelled from the spec: the size-only scan — Stage 1 only (§4.3). -/
def scanSizeOnly (files : List FileRecord) : List DuplicateGroup :=
  (sizeKeys files).filterMap (sizeOnlyGroup files)

/-- Modelled from the spec: Stage-2 hashing of one bucket; a per-file
hashing failure (content `none`) removes only that file (§4.3, failure
policy). -/
def hashBucket (b : List FileRecord) : List (Digest × FileRecord) :=
  b.filterMap fun f => f.content.map fun c => (hashContent c, f)

/-- Modelled from the spec: the distinct digests of a hashed bucket. -/
def digestKeys (hashed : List (Digest × FileRecord)) : List Digest :=
  (hashed.map Prod.fst).dedup

/-- Modelled from the spec: the final group for one digest within a hashed
bucket — only digest-sharing subsets of at least two members survive (§4.3). -/
def digestGroup (s : Nat) (hashed : List (Digest × FileRecord)) (d : Digest) :
    Option DuplicateGroup :=
  let g := (hashed.filter fun p => p.1 = d).map Prod.snd
  if 2 ≤ g.length then some ⟨d, s, g⟩ else none

/-- Modelled from the spec: Stage-2 regrouping of a hashed bucket by digest. -/
def regroupByDigest (s : Nat) (hashed : List (Digest × FileRecord)) :
    List DuplicateGroup :=
  (digestKeys hashed).filterMap (digestGroup s hashed)

/-- Modelled from the spec: the full-accuracy groups arising from the size-`s`
bucket: Stage 2 runs only on buckets of at least two members (§4.3). -/
def strictGroupsAt (files : List FileRecord) (s : Nat) : List DuplicateGroup :=
  let b := bucketFor files s
  if 2 ≤ b.length then regroupByDigest s (hashBucket b) else []

/-- Modelled from the spec: the full-accuracy scan — size bucketing, then
content hashing and regrouping by digest (§4.3). -/
def scanStrict (files : List FileRecord) : List DuplicateGroup :=
  (sizeKeys files).flatMap (strictGroupsAt files)

/-- Modelled from the spec: the two accepted scan modes (§4.3, §6). -/
inductive ScanMode where
  | strict
  | sizeOnly
deriving DecidableEq, Repr

/-- Modelled from the spec: the Grouping Engine run in the selected mode. -/
def runScan (mode : ScanMode) (files : List FileRecord) : List DuplicateGroup :=
  match mode with
  | .strict => scanStrict files
  | .sizeOnly => scanSizeOnly files

/-- Modelled from the spec: the scan root as seen by the Scan Coordinator —
whether it exists, whether it is a readable directory, and the walker's
file enumeration when it is valid (§4.4). -/
structure RootDir where
  rootExists : Bool
  isReadableDir : Bool
  files : List FileRecord

/-- Modelled from the spec: `scan_folder` fails with a single error exactly
when the root does not exist or is not a readable directory; otherwise it
returns the grouped result (§4.4, §6, §7). -/
def scan_folder (root : RootDir) (mode : ScanMode) :
    Except String (List DuplicateGroup) :=
  if root.rootExists && root.isReadableDir then .ok (runScan mode root.files)
  else .error "invalid or unreadable root path"

/-- Modelled from the spec: the ambient trash environment of the Deletion
Service — which paths exist and which can be moved to the trash store (§4.5). -/
structure Trash where
  pathExists : String → Bool
  trashMoveOk : String → Bool

/-- Modelled from the spec: whether the per-path trash move succeeds. -/
def deleteOk (t : Trash) (p : String) : Bool :=
  t.pathExists p && t.trashMoveOk p

/-- Modelled from the spec: the human-readable per-path failure reason. -/
def deleteReason (t : Trash) (p : String) : String :=
  if t.pathExists p then "could not move to trash" else "file not found"

/-- Modelled from the spec: `delete_files` attempts every requested path
independently, collecting successes into `deleted` and per-path failures
into `failed` with a reason (§4.5, §6). -/
def delete_files (t : Trash) (paths : List String) : App.DeleteResult where
  deleted := paths.filter fun p => deleteOk t p
  failed := paths.filterMap fun p =>
    if deleteOk t p then none else some (p, deleteReason t p)

/-- Modelled from the spec: what the Preview Provider finds at a path —
an image, leading text, an unreadable entry, or content of an unsupported
kind (§2, §6, §7). -/
inductive FileContent where
  | image (data : String)
  | text (t : String)
  | unreadable
  | unsupportedKind
deriving DecidableEq, Repr

/-- Modelled from the spec: `get_file_preview` returns an image or text
sample and degrades to an `"unsupported"` result with a human-readable
message for unreadable or unsupported content, never failing the call
(§6, §7). -/
def get_file_preview (read : String → FileContent) (path : String) :
    App.FilePreview :=
  match read path with
  | .image d => ⟨"image", d, path⟩
  | .text t => ⟨"text", t, path⟩
  | .unreadable => ⟨"unsupported", "file could not be read", path⟩
  | .unsupportedKind => ⟨"unsupported", "unsupported file type", path⟩

/-- The three preview kinds of the wire contract (§6). -/
def previewKinds : List String := ["image", "text", "unsupported"]

/-- Modelled from the spec: one directory entry seen by the File Walker —
a regular file, a subdirectory (identified by the canonical identity of the
directory it denotes, so a symbolic link to an ancestor reuses that
ancestor's identity and can close a cycle), or an entry that cannot be
read (§4.1). -/
inductive Entry where
  | file (f : FileRecord)
  | dir (id : Nat)
  | unreadable
deriving DecidableEq, Repr

/-- Modelled from the spec: the regular files listed in directory `d` of the
directory graph `fs`. -/
def dirFiles (fs : Nat → List Entry) (d : Nat) : List FileRecord :=
  (fs d).filterMap fun e =>
    match e with
    | .file f => some f
    | _ => none

/-- Modelled from the spec: the subdirectory identities listed in directory
`d` of the directory graph `fs` (symbolic links included). -/
def dirSubdirs (fs : Nat → List Entry) (d : Nat) : List Nat :=
  (fs d).filterMap fun e =>
    match e with
    | .dir i => some i
    | _ => none

/-- Modelled from the spec: the File Walker's worklist loop over the
directory graph `fs` whose canonical directory identities all lie below
`n`.  Visited canonical identities are tracked so that a symbolic-link
cycle is never followed twice, guaranteeing termination (§4.1); unreadable
entries contribute nothing and never abort the walk. -/
def walkAux (fs : Nat → List Entry) (n : Nat) :
    Finset Nat → List Nat → List FileRecord
  | _, [] => []
  | visited, d :: rest =>
    if d ∈ visited ∨ n ≤ d then walkAux fs n visited rest
    else dirFiles fs d ++ walkAux fs n (insert d visited) (dirSubdirs fs d ++ rest)
termination_by visited pending =>
  (((Finset.range n).filter fun i => i ∉ visited).card, pending.length)
decreasing_by
· exact Prod.Lex.right _ (Nat.lt_succ_self _)
· refine Prod.Lex.left _ _ (Finset.card_lt_card ?_)
  constructor
  · intro x hx
    simp only [Finset.mem_filter, Finset.mem_range, Finset.mem_insert] at hx ⊢
    exact ⟨hx.1, fun hxv => hx.2 (Or.inr hxv)⟩
  · intro hsub
    rcases not_or.mp (by assumption) with ⟨hdv, hdn⟩
    have hd : d ∈ (Finset.range n).filter fun i => i ∉ visited := by
      simp only [Finset.mem_filter, Finset.mem_range]
      exact ⟨Nat.lt_of_not_le hdn, hdv⟩
    have := hsub hd
    simp only [Finset.mem_filter, Finset.mem_range, Finset.mem_insert] at this
    exact this.2 (Or.inl trivial)

/-- Modelled from the spec: the File Walker — enumerate every regular file
reachable from the root directory (canonical identity `0`) of a directory
graph whose identities lie below `n` (§4.1). -/
def walk (fs : Nat → List Entry) (n : Nat) : List FileRecord :=
  walkAux fs n ∅ [0]

/-- Modelled from the spec: erase the unreadable entries of every directory
listing — the walker must behave as if they were simply absent (§4.1). -/
def stripUnreadable (fs : Nat → List Entry) : Nat → List Entry :=
  fun d => (fs d).filter fun e =>
    match e with
    | .unreadable => false
    | _ => true

/-- All file paths listed anywhere in the directory graph, directory by
directory. -/
def allTreePaths (fs : Nat → List Entry) (n : Nat) : List String :=
  (List.range n).flatMap fun d => (dirFiles fs d).map (·.path)

/-- A record's `size` field agrees with the byte length of its (readable)
content — the §3 consistency invariant between enumeration and hashing. -/
def sizeConsistent (f : FileRecord) : Bool :=
  match f.content with
  | some c => f.size = c.length
  | none => true

/-- The membership of a group, as the set of its members' paths. -/
def groupMembers (g : DuplicateGroup) : Finset String :=
  (g.files.map (·.path)).toFinset

/-- The membership of a whole scan result: the multiset of its groups'
path sets — scan output up to internal ordering of groups and of files
within a group. -/
def scanMembership (gs : List DuplicateGroup) : Multiset (Finset String) :=
  (gs.map groupMembers : List (Finset String))

/-- Replace every record's content by what the content assignment `c` holds
at its path, leaving all scan-relevant metadata untouched. -/
def withContent (c : String → Option (List Nat)) (f : FileRecord) : FileRecord :=
  { f with content := c f.path }

/-- Apply `withContent` to every member of a group. -/
def groupWithContent (c : String → Option (List Nat)) (g : DuplicateGroup) :
    DuplicateGroup :=
  { g with files := g.files.map (withContent c) }

end Engine

namespace App

/-- The size of the file at index `j` of a group's file list
(`group.files[j].size` in `src/App.tsx`), with default 0 out of range. -/
def sizeAt (files : List FileInfo) (j : Nat) : Nat :=
  (files.map (·.size)).getD j 0

end App

/-! Concrete fixtures, following the spec's §8 scenario: `a.txt` and `b.txt`
hold the bytes of "hi", `c.txt` holds different content of the same size. -/

/-- Fixture: `a.txt` with content "hi" (bytes 104, 105). -/
def fileA : Engine.FileRecord :=
  ⟨"/root/a.txt", "a.txt", 2, "txt", some [104, 105]⟩

/-- Fixture: `b.txt`, byte-identical to `a.txt` under another name. -/
def fileB : Engine.FileRecord :=
  ⟨"/root/sub/b.txt", "b.txt", 2, "txt", some [104, 105]⟩

/-- Fixture: `c.txt`, same size as `a.txt` but different bytes ("by"). -/
def fileC : Engine.FileRecord :=
  ⟨"/root/c.txt", "c.txt", 2, "txt", some [98, 121]⟩

/-- Fixture: the three-file scan input of the §8 scenario. -/
def scenarioFiles : List Engine.FileRecord := [fileA, fileB, fileC]

/-- Fixture: a directory graph with a symbolic-link cycle between the root
(identity 0) and its subdirectory (identity 1), one regular file in each,
plus an unreadable entry. -/
def cyclicFs : Nat → List Engine.Entry := fun d =>
  if d = 0 then [Engine.Entry.dir 1, Engine.Entry.file fileA]
  else if d = 1 then
    [Engine.Entry.dir 0, Engine.Entry.unreadable, Engine.Entry.file fileB]
  else []

/-- Fixture: wire-side file records for the frontend helpers. -/
def finfoA : App.FileInfo := ⟨"/root/a.txt", "a.txt", 2, "hash-hi", "txt"⟩

/-- Fixture: second wire-side record of the same group. -/
def finfoB : App.FileInfo := ⟨"/root/sub/b.txt", "b.txt", 2, "hash-hi", "txt"⟩

/-- Fixture: third wire-side record of the same group. -/
def finfoC : App.FileInfo := ⟨"/root/d.txt", "d.txt", 2, "hash-hi", "txt"⟩

/-- Fixture: a wire-side duplicate group holding the three records. -/
def wireGroup : App.DuplicateGroup := ⟨"hash-hi", 2, [finfoA, finfoB, finfoC]⟩

/-- Fixture: a wire-side group with members of unequal sizes, to exercise
the largest-file selection helper. -/
def mixedGroup : App.DuplicateGroup :=
  ⟨"hash-mix", 2,
    [⟨"/k/a.bin", "a.bin", 5, "hash-mix", "bin"⟩,
     ⟨"/k/b.bin", "b.bin", 9, "hash-mix", "bin"⟩,
     ⟨"/k/c.bin", "c.bin", 9, "hash-mix", "bin"⟩,
     ⟨"/k/d.bin", "d.bin", 3, "hash-mix", "bin"⟩]⟩

/-- Fixture: a trash environment where `/gone` does not exist and every
other path can be moved to the trash store. -/
def trashEnv : Engine.Trash :=
  ⟨fun p => ¬ p = "/gone", fun _ => true⟩

/-- Fixture: a valid scan root holding the scenario files. -/
def goodRoot : Engine.RootDir := ⟨true, true, scenarioFiles⟩

/-! ## Helper lemmas -/

/-- A list containing two distinct elements has length at least two. -/
theorem two_le_length_of_mem_ne {α : Type} {a b : α} {l : List α}
    (ha : a ∈ l) (hb : b ∈ l) (hne : a ≠ b) : 2 ≤ l.length := by
  cases l with
  | nil => cases ha
  | cons x xs =>
    cases xs with
    | nil =>
      simp only [List.mem_singleton] at ha hb
      exact absurd (ha.trans hb.symm) hne
    | cons y ys => simp [List.length_cons]

/-- Filtering and the complementary failure collection partition a list. -/
theorem length_filter_add_length_filterMap {α β : Type} (p : α → Bool) (f : α → β) :
    ∀ l : List α, (l.filter p).length +
      (l.filterMap fun a => if p a then none else some (f a)).length = l.length
  | [] => rfl
  | a :: l => by
    have ih := length_filter_add_length_filterMap p f l
    by_cases h : p a <;> simp [List.filter_cons, List.filterMap_cons, h] <;> omega

/-- Membership characterization of a size-only scan group: the sentinel
digest, the full size bucket as members, and at least two members. -/
theorem mem_scanSizeOnly {files : List Engine.FileRecord}
    {g : Engine.DuplicateGroup} (hg : g ∈ Engine.scanSizeOnly files) :
    g.digest = Engine.Digest.sentinel ∧
    g.files = (files.filter fun f => f.size = g.size) ∧
    2 ≤ g.files.length := by
  simp only [Engine.scanSizeOnly, List.mem_filterMap] at hg
  rcases hg with ⟨s, _, hs⟩
  simp only [Engine.sizeOnlyGroup, Engine.bucketFor] at hs
  split at hs
  · cases hs
    exact ⟨rfl, rfl, by assumption⟩
  · cases hs

/-- Membership characterization of a full-accuracy scan group: at least two
members, every member drawn from the scanned files with the group's size,
and every member's content hashing to the group's digest. -/
theorem mem_scanStrict {files : List Engine.FileRecord}
    {g : Engine.DuplicateGroup} (hg : g ∈ Engine.scanStrict files) :
    2 ≤ g.files.length ∧
    ∀ f ∈ g.files, f ∈ files ∧ f.size = g.size ∧
      ∃ c, f.content = some c ∧ Engine.hashContent c = g.digest := by
  simp only [Engine.scanStrict, List.mem_flatMap] at hg
  rcases hg with ⟨s, _, hs⟩
  simp only [Engine.strictGroupsAt] at hs
  split at hs
  case isFalse => cases hs
  case isTrue =>
    simp only [Engine.regroupByDigest, List.mem_filterMap] at hs
    rcases hs with ⟨d, _, hd⟩
    simp only [Engine.digestGroup] at hd
    split at hd
    case isFalse => cases hd
    case isTrue h2 =>
      cases hd
      refine ⟨h2, ?_⟩
      intro f hf
      simp only [List.mem_map, List.mem_filter] at hf
      rcases hf with ⟨⟨d', f'⟩, ⟨hmem, hdd⟩, rfl⟩
      simp only [Engine.hashBucket, List.mem_filterMap] at hmem
      rcases hmem with ⟨f₀, hf₀, hsome⟩
      simp only [Option.map_eq_some'] at hsome
      rcases hsome with ⟨c, hc, hpair⟩
      cases hpair
      simp only [Engine.bucketFor, List.mem_filter] at hf₀
      refine ⟨hf₀.1, by simpa using hf₀.2, c, hc, ?_⟩
      simpa using hdd


/-- Unfolding `sizeAt` at the head of a list. -/
theorem sizeAt_zero (f : App.FileInfo) (rest : List App.FileInfo) :
    App.sizeAt (f :: rest) 0 = f.size := rfl

/-- Unfolding `sizeAt` past the head of a list. -/
theorem sizeAt_succ (f : App.FileInfo) (rest : List App.FileInfo) (j : Nat) :
    App.sizeAt (f :: rest) (j + 1) = App.sizeAt rest j := rfl

/-- Invariant of the maximum-search loop of `selectAllButOne`: either no
element beats the running maximum and the accumulator index survives, or
the loop returns the offset of the first list element attaining the
overall maximum, which strictly exceeds the running maximum. -/
theorem maxIdxAux_spec (l : List App.FileInfo) : ∀ i mi ms : Nat,
    (App.maxIdxAux l i mi ms = mi ∧ ∀ j < l.length, App.sizeAt l j ≤ ms) ∨
    (∃ k, k < l.length ∧ App.maxIdxAux l i mi ms = i + k ∧
      ms < App.sizeAt l k ∧
      (∀ j < l.length, App.sizeAt l j ≤ App.sizeAt l k) ∧
      (∀ j < k, App.sizeAt l j < App.sizeAt l k)) := by
  induction l with
  | nil =>
    intro i mi ms
    left
    exact ⟨rfl, by simp⟩
  | cons f rest ih =>
    intro i mi ms
    by_cases h : ms < f.size
    · rcases ih (i + 1) i f.size with ⟨heq, hub⟩ | ⟨k, hk, heq, hgt, hub, hst⟩
      · right
        refine ⟨0, by simp, ?_, by simpa [sizeAt_zero] using h, ?_, by omega⟩
        · simp [App.maxIdxAux, h, heq]
        · intro j hj
          cases j with
          | zero => simp [sizeAt_zero]
          | succ j =>
            rw [sizeAt_succ, sizeAt_zero]
            exact hub j (by simpa using hj)
      · right
        refine ⟨k + 1, by simpa using hk, ?_, ?_, ?_, ?_⟩
        · rw [App.maxIdxAux, if_pos h, heq]; omega
        · rw [sizeAt_succ]; exact lt_trans h hgt
        · intro j hj
          cases j with
          | zero => rw [sizeAt_zero, sizeAt_succ]; exact le_of_lt hgt
          | succ j => rw [sizeAt_succ, sizeAt_succ]; exact hub j (by simpa using hj)
        · intro j hj
          cases j with
          | zero => rw [sizeAt_zero, sizeAt_succ]; exact hgt
          | succ j => rw [sizeAt_succ, sizeAt_succ]; exact hst j (by omega)
    · rcases ih (i + 1) mi ms with ⟨heq, hub⟩ | ⟨k, hk, heq, hgt, hub, hst⟩
      · left
        refine ⟨by simp [App.maxIdxAux, h, heq], ?_⟩
        intro j hj
        cases j with
        | zero => rw [sizeAt_zero]; omega
        | succ j => rw [sizeAt_succ]; exact hub j (by simpa using hj)
      · right
        refine ⟨k + 1, by simpa using hk, ?_, ?_, ?_, ?_⟩
        · rw [App.maxIdxAux, if_neg h, heq]; omega
        · rw [sizeAt_succ]; exact hgt
        · intro j hj
          cases j with
          | zero => rw [sizeAt_zero, sizeAt_succ]; omega
          | succ j => rw [sizeAt_succ, sizeAt_succ]; exact hub j (by simpa using hj)
        · intro j hj
          cases j with
          | zero => rw [sizeAt_zero, sizeAt_succ]; omega
          | succ j => rw [sizeAt_succ, sizeAt_succ]; exact hst j (by omega)

/-- The kept index of `selectAllButOne` is in range, carries the maximum
size of the group, and is the first index attaining that maximum. -/
theorem maxSizeFileIndex_spec (files : List App.FileInfo)
    (h : 0 < files.length) :
    App.maxSizeFileIndex files < files.length ∧
    (∀ j < files.length,
      App.sizeAt files j ≤ App.sizeAt files (App.maxSizeFileIndex files)) ∧
    (∀ j < App.maxSizeFileIndex files,
      App.sizeAt files j < App.sizeAt files (App.maxSizeFileIndex files)) := by
  cases files with
  | nil => simp at h
  | cons f rest =>
    show App.maxIdxAux rest 1 0 f.size < (f :: rest).length ∧ _ ∧ _
    rcases maxIdxAux_spec rest 1 0 f.size with ⟨heq, hub⟩ | ⟨k, hk, heq, hgt, hub, hst⟩
    · rw [App.maxSizeFileIndex, heq]
      refine ⟨by simp, ?_, by omega⟩
      intro j hj
      cases j with
      | zero => exact le_refl _
      | succ j => rw [sizeAt_succ, sizeAt_zero]; exact hub j (by simpa using hj)
    · rw [App.maxSizeFileIndex, heq]
      have hgt' : f.size < App.sizeAt rest k := by simpa [sizeAt_zero] using hgt
      refine ⟨by simp only [List.length_cons]; omega, ?_, ?_⟩
      · intro j hj
        rw [show 1 + k = k + 1 by omega, sizeAt_succ]
        cases j with
        | zero => rw [sizeAt_zero]; exact le_of_lt hgt'
        | succ j => rw [sizeAt_succ]; exact hub j (by simpa using hj)
      · intro j hj
        rw [show 1 + k = k + 1 by omega, sizeAt_succ]
        cases j with
        | zero => rw [sizeAt_zero]; exact hgt'
        | succ j => rw [sizeAt_succ]; exact hst j (by omega)

/-- Past the excluded index, the selection loop keeps every path. -/
theorem selectExcept_gt (m : Nat) :
    ∀ (l : List App.FileInfo) (i : Nat), m < i →
      App.selectExcept m l i = l.map (·.path) := by
  intro l
  induction l with
  | nil => intro i _; rfl
  | cons f rest ih =>
    intro i hi
    rw [App.selectExcept, if_neg (by omega), ih (i + 1) (by omega), List.map_cons]

/-- Below the excluded index, the selection loop keeps every path except
the one at offset `m - i`. -/
theorem selectExcept_le (m : Nat) :
    ∀ (l : List App.FileInfo) (i : Nat), i ≤ m →
      App.selectExcept m l i = (l.eraseIdx (m - i)).map (·.path) := by
  intro l
  induction l with
  | nil => intro i _; rfl
  | cons f rest ih =>
    intro i hi
    by_cases h : i = m
    · subst h
      rw [App.selectExcept, if_pos rfl, selectExcept_gt i rest (i + 1) (by omega),
        Nat.sub_self, List.eraseIdx_cons_zero]
    · have hlt : i < m := by omega
      rw [App.selectExcept, if_neg h, ih (i + 1) (by omega),
        show m - i = (m - (i + 1)) + 1 by omega, List.eraseIdx_cons_succ, List.map_cons]

/-- Erasing unreadable entries does not change the regular files listed in
a directory. -/
theorem dirFiles_strip (fs : Nat → List Engine.Entry) (d : Nat) :
    Engine.dirFiles (Engine.stripUnreadable fs) d = Engine.dirFiles fs d := by
  unfold Engine.dirFiles Engine.stripUnreadable
  generalize fs d = l
  induction l with
  | nil => rfl
  | cons e es ih => cases e <;> simp [List.filter_cons, List.filterMap_cons, ih]

/-- Erasing unreadable entries does not change the subdirectories listed in
a directory. -/
theorem dirSubdirs_strip (fs : Nat → List Engine.Entry) (d : Nat) :
    Engine.dirSubdirs (Engine.stripUnreadable fs) d = Engine.dirSubdirs fs d := by
  unfold Engine.dirSubdirs Engine.stripUnreadable
  generalize fs d = l
  induction l with
  | nil => rfl
  | cons e es ih => cases e <;> simp [List.filter_cons, List.filterMap_cons, ih]

/-- The walker loop is unaffected by erasing unreadable entries from every
directory listing. -/
theorem walkAux_strip (fs : Nat → List Engine.Entry) (n : Nat)
    (visited : Finset Nat) (pending : List Nat) :
    Engine.walkAux (Engine.stripUnreadable fs) n visited pending =
      Engine.walkAux fs n visited pending := by
  induction visited, pending using Engine.walkAux.induct fs n with
  | case1 v => rw [Engine.walkAux, Engine.walkAux]
  | case2 v d rest h ih =>
    rw [Engine.walkAux, Engine.walkAux, if_pos h, if_pos h, ih]
  | case3 v d rest h ih =>
    rw [Engine.walkAux, Engine.walkAux, if_neg h, if_neg h,
      dirFiles_strip, dirSubdirs_strip, ih]

/-- The walker loop expands a duplicate-free list of fresh directory
identities below the bound, and its output is exactly the concatenation of
those directories' file listings — so the walk terminates (it is a total
function) and lists each directory at most once. -/
theorem walkAux_structure (fs : Nat → List Engine.Entry) (n : Nat)
    (visited : Finset Nat) (pending : List Nat) :
    ∃ ds : List Nat, ds.Nodup ∧ (∀ d ∈ ds, d < n ∧ d ∉ visited) ∧
      Engine.walkAux fs n visited pending = ds.flatMap (Engine.dirFiles fs) := by
  induction visited, pending using Engine.walkAux.induct fs n with
  | case1 v => exact ⟨[], by simp, by simp, by rw [Engine.walkAux]; simp⟩
  | case2 v d rest h ih =>
    rcases ih with ⟨ds, hnodup, hmem, heq⟩
    exact ⟨ds, hnodup, hmem, by rw [Engine.walkAux, if_pos h, heq]⟩
  | case3 v d rest h ih =>
    rcases ih with ⟨ds, hnodup, hmem, heq⟩
    have hd : d < n ∧ d ∉ v := by
      rcases not_or.mp h with ⟨h1, h2⟩
      exact ⟨by omega, h1⟩
    refine ⟨d :: ds, ?_, ?_, ?_⟩
    · rw [List.nodup_cons]
      refine ⟨fun hdin => ?_, hnodup⟩
      exact (hmem d hdin).2 (Finset.mem_insert_self d v)
    · intro x hx
      rcases List.mem_cons.mp hx with rfl | hx'
      · exact hd
      · have := hmem x hx'
        exact ⟨this.1, fun hxv => this.2 (Finset.mem_insert_of_mem hxv)⟩
    · rw [Engine.walkAux, if_neg h, heq, List.flatMap_cons]

/-- Taking a sublist before flattening yields a sublist of the flattening. -/
theorem sublist_flatMap_local {α β : Type} {l₁ l₂ : List α} (f : α → List β)
    (h : l₁.Sublist l₂) : (l₁.flatMap f).Sublist (l₂.flatMap f) := by
  induction h with
  | slnil => simp
  | cons a h ih =>
    rw [List.flatMap_cons]
    exact ih.trans (List.sublist_append_right _ _)
  | cons₂ a h ih =>
    rw [List.flatMap_cons, List.flatMap_cons]
    exact ih.append_left _

/-- Collecting groups over permuted key lists with membership-equal group
options yields permuted membership lists. -/
theorem filterMap_groupMembers_perm {α : Type} {keys₁ keys₂ : List α}
    (F₁ F₂ : α → Option Engine.DuplicateGroup) (hk : keys₁.Perm keys₂)
    (hF : ∀ s, (F₁ s).map Engine.groupMembers = (F₂ s).map Engine.groupMembers) :
    ((keys₁.filterMap F₁).map Engine.groupMembers).Perm
      ((keys₂.filterMap F₂).map Engine.groupMembers) := by
  rw [List.map_filterMap, List.map_filterMap]
  rw [show (fun a => (F₁ a).map Engine.groupMembers) =
    fun a => (F₂ a).map Engine.groupMembers from funext hF]
  exact hk.filterMap _

/-- A permutation of the scanned files leaves each size-only group's
membership unchanged. -/
theorem sizeOnlyGroup_perm {l₁ l₂ : List Engine.FileRecord} (h : l₁.Perm l₂)
    (s : Nat) :
    (Engine.sizeOnlyGroup l₁ s).map Engine.groupMembers =
      (Engine.sizeOnlyGroup l₂ s).map Engine.groupMembers := by
  have hb : (Engine.bucketFor l₁ s).Perm (Engine.bucketFor l₂ s) := h.filter _
  have hlen := hb.length_eq
  simp only [Engine.sizeOnlyGroup]
  by_cases h2 : 2 ≤ (Engine.bucketFor l₁ s).length
  · rw [if_pos h2, if_pos (hlen ▸ h2)]
    simp only [Option.map_some']
    have : Engine.groupMembers ⟨Engine.Digest.sentinel, s, Engine.bucketFor l₁ s⟩ =
        Engine.groupMembers ⟨Engine.Digest.sentinel, s, Engine.bucketFor l₂ s⟩ :=
      List.toFinset_eq_of_perm _ _ (hb.map _)
    rw [this]
  · rw [if_neg h2, if_neg (hlen ▸ h2)]

/-- A permutation of a hashed bucket leaves each digest group's membership
unchanged. -/
theorem digestGroup_perm {h₁ h₂ : List (Engine.Digest × Engine.FileRecord)}
    (hp : h₁.Perm h₂) (s : Nat) (d : Engine.Digest) :
    (Engine.digestGroup s h₁ d).map Engine.groupMembers =
      (Engine.digestGroup s h₂ d).map Engine.groupMembers := by
  have hb : ((h₁.filter fun p => p.1 = d).map Prod.snd).Perm
      ((h₂.filter fun p => p.1 = d).map Prod.snd) := (hp.filter _).map _
  have hlen := hb.length_eq
  simp only [Engine.digestGroup]
  by_cases h2 : 2 ≤ ((h₁.filter fun p => p.1 = d).map Prod.snd).length
  · rw [if_pos h2, if_pos (hlen ▸ h2)]
    simp only [Option.map_some']
    have : Engine.groupMembers ⟨d, s, (h₁.filter fun p => p.1 = d).map Prod.snd⟩ =
        Engine.groupMembers ⟨d, s, (h₂.filter fun p => p.1 = d).map Prod.snd⟩ :=
      List.toFinset_eq_of_perm _ _ (hb.map _)
    rw [this]
  · rw [if_neg h2, if_neg (hlen ▸ h2)]

/-- A permutation of the scanned files permutes the membership of the
full-accuracy groups arising from any one size. -/
theorem strictGroupsAt_perm {l₁ l₂ : List Engine.FileRecord} (h : l₁.Perm l₂)
    (s : Nat) :
    ((Engine.strictGroupsAt l₁ s).map Engine.groupMembers).Perm
      ((Engine.strictGroupsAt l₂ s).map Engine.groupMembers) := by
  have hb : (Engine.bucketFor l₁ s).Perm (Engine.bucketFor l₂ s) := h.filter _
  have hh : (Engine.hashBucket (Engine.bucketFor l₁ s)).Perm
      (Engine.hashBucket (Engine.bucketFor l₂ s)) := hb.filterMap _
  have hkeys : (Engine.digestKeys (Engine.hashBucket (Engine.bucketFor l₁ s))).Perm
      (Engine.digestKeys (Engine.hashBucket (Engine.bucketFor l₂ s))) :=
    (hh.map _).dedup
  have hlen := hb.length_eq
  simp only [Engine.strictGroupsAt]
  by_cases h2 : 2 ≤ (Engine.bucketFor l₁ s).length
  · rw [if_pos h2, if_pos (hlen ▸ h2)]
    exact filterMap_groupMembers_perm _ _ hkeys fun d => digestGroup_perm hh s d
  · rw [if_neg h2, if_neg (hlen ▸ h2)]

/-- Replacing contents leaves the Stage-1 size keys unchanged. -/
theorem sizeKeys_withContent (files : List Engine.FileRecord)
    (c : String → Option (List Nat)) :
    Engine.sizeKeys (files.map (Engine.withContent c)) = Engine.sizeKeys files := by
  simp only [Engine.sizeKeys, List.map_map]
  rfl

/-- Replacing contents commutes with Stage-1 size bucketing. -/
theorem bucketFor_withContent (files : List Engine.FileRecord)
    (c : String → Option (List Nat)) (s : Nat) :
    Engine.bucketFor (files.map (Engine.withContent c)) s =
      (Engine.bucketFor files s).map (Engine.withContent c) := by
  simp only [Engine.bucketFor, List.filter_map]
  rfl

/-- Replacing contents commutes with forming one size-only group. -/
theorem sizeOnlyGroup_withContent (files : List Engine.FileRecord)
    (c : String → Option (List Nat)) (s : Nat) :
    Engine.sizeOnlyGroup (files.map (Engine.withContent c)) s =
      (Engine.sizeOnlyGroup files s).map (Engine.groupWithContent c) := by
  simp only [Engine.sizeOnlyGroup, bucketFor_withContent, List.length_map]
  by_cases h2 : 2 ≤ (Engine.bucketFor files s).length
  · rw [if_pos h2, if_pos h2]; rfl
  · rw [if_neg h2, if_neg h2]; rfl

/-! ## Claim theorems -/

/-- C4: for every `delete_files(paths)` call with N requested paths,
`deleted.length + failed.length = N`; every nonexistent path appears in
`failed` with a reason; and deletion is compositional over the path list —
the outcome on `l1 ++ l2` is the concatenation of the outcomes on `l1` and
`l2`, so no single path's failure prevents the attempt on any remaining
path, and a partially-successful batch is an ordinary result. -/
theorem delete_files_partial_failure_safe (t : Engine.Trash)
    (paths : List String) :
    ((Engine.delete_files t paths).deleted.length +
      (Engine.delete_files t paths).failed.length = paths.length) ∧
    (∀ p ∈ paths, t.pathExists p = false →
      (p, "file not found") ∈ (Engine.delete_files t paths).failed) ∧
    (∀ l1 l2 : List String,
      (Engine.delete_files t (l1 ++ l2)).deleted =
        (Engine.delete_files t l1).deleted ++ (Engine.delete_files t l2).deleted ∧
      (Engine.delete_files t (l1 ++ l2)).failed =
        (Engine.delete_files t l1).failed ++ (Engine.delete_files t l2).failed) := by
  refine ⟨?_, ?_, ?_⟩
  · exact length_filter_add_length_filterMap _ _ paths
  · intro p hp hpe
    simp only [Engine.delete_files, List.mem_filterMap]
    refine ⟨p, hp, ?_⟩
    have hok : Engine.deleteOk t p = false := by
      simp [Engine.deleteOk, hpe]
    rw [if_neg (by simp [hok])]
    simp [Engine.deleteReason, hpe]
  · intro l1 l2
    constructor
    · simp [Engine.delete_files, List.filter_append]
    · simp [Engine.delete_files, List.filterMap_append]

/-- C4 witness: a concrete three-path batch with one nonexistent path —
the counts partition and the nonexistent path is reported in `failed`. -/
theorem delete_files_partial_failure_safe_witness :
    ("/gone" ∈ ["/a", "/gone", "/b"] ∧ trashEnv.pathExists "/gone" = false) ∧
    ("/gone", "file not found") ∈
      (Engine.delete_files trashEnv ["/a", "/gone", "/b"]).failed :=
  ⟨⟨by decide, by decide⟩,
    (delete_files_partial_failure_safe trashEnv ["/a", "/gone", "/b"]).2.1
      "/gone" (by decide) (by decide)⟩

/-- C5: `get_file_preview` always yields a preview whose kind is one of
image, text, or unsupported, preserving the requested path; unreadable or
unsupported content degrades to an `"unsupported"` result with a message
rather than a failure; and the caller's `loadPreview` maps any transport
failure to an `"unsupported"` result that preserves the requested path. -/
theorem preview_never_fails :
    (∀ (read : String → Engine.FileContent) (path : String),
      (Engine.get_file_preview read path).preview_type ∈ Engine.previewKinds ∧
      (Engine.get_file_preview read path).file_path = path) ∧
    (∀ (read : String → Engine.FileContent) (path : String),
      read path = Engine.FileContent.unreadable →
      Engine.get_file_preview read path =
        ⟨"unsupported", "file could not be read", path⟩) ∧
    (∀ (transport : String → Option App.FilePreview) (path : String),
      transport path = none →
      App.loadPreview transport path =
        ⟨"unsupported", "プレビューの読み込みに失敗しました", path⟩) ∧
    (∀ (transport : String → Option App.FilePreview)
        (read : String → Engine.FileContent) (path : String),
      transport path = some (Engine.get_file_preview read path) →
      (App.loadPreview transport path).preview_type ∈ Engine.previewKinds ∧
      (App.loadPreview transport path).file_path = path) := by
  have hmain : ∀ (read : String → Engine.FileContent) (path : String),
      (Engine.get_file_preview read path).preview_type ∈ Engine.previewKinds ∧
      (Engine.get_file_preview read path).file_path = path := by
    intro read path
    unfold Engine.get_file_preview
    cases read path <;> simp [Engine.previewKinds]
  refine ⟨hmain, ?_, ?_, ?_⟩
  · intro read path h
    unfold Engine.get_file_preview
    rw [h]
  · intro transport path h
    unfold App.loadPreview
    rw [h]
  · intro transport read path h
    unfold App.loadPreview
    rw [h]
    exact hmain read path

/-- C5 witness: a concrete transport failure degrades to the
`"unsupported"` preview carrying the requested path. -/
theorem preview_never_fails_witness :
    ((fun _ : String => (none : Option App.FilePreview)) "/root/a.txt" = none) ∧
    App.loadPreview (fun _ => none) "/root/a.txt" =
      ⟨"unsupported", "プレビューの読み込みに失敗しました", "/root/a.txt"⟩ :=
  ⟨rfl, preview_never_fails.2.2.1 (fun _ => none) "/root/a.txt" rfl⟩

/-- C8: `scan_folder` fails with a single error exactly when the root does
not exist or is not a readable directory; for a valid root it returns the
grouped (possibly empty) result of the selected mode — in particular
per-file entry-local failures, which only drop records inside `runScan`,
never make the whole scan fail. -/
theorem scan_folder_error_iff (root : Engine.RootDir) (mode : Engine.ScanMode) :
    ((∃ e, Engine.scan_folder root mode = .error e) ↔
      (root.rootExists = false ∨ root.isReadableDir = false)) ∧
    (root.rootExists = true → root.isReadableDir = true →
      Engine.scan_folder root mode = .ok (Engine.runScan mode root.files)) := by
  constructor
  · unfold Engine.scan_folder
    constructor
    · intro ⟨e, he⟩
      by_cases h : root.rootExists && root.isReadableDir
      · rw [if_pos h] at he; cases he
      · rcases Bool.and_eq_false_iff.mp (Bool.eq_false_iff.mpr h) with h1 | h1
        · exact Or.inl h1
        · exact Or.inr h1
    · intro h
      have hand : (root.rootExists && root.isReadableDir) = false := by
        rcases h with h | h <;> simp [h]
      rw [if_neg (by simp [hand])]
      exact ⟨"invalid or unreadable root path", rfl⟩
  · intro h1 h2
    unfold Engine.scan_folder
    rw [if_pos (by simp [h1, h2])]

/-- C8 witness: a concrete valid root scans to the grouped result, and a
root marked unreadable yields an error. -/
theorem scan_folder_error_iff_witness :
    (goodRoot.rootExists = true ∧ goodRoot.isReadableDir = true) ∧
    Engine.scan_folder goodRoot Engine.ScanMode.strict =
      .ok (Engine.runScan Engine.ScanMode.strict goodRoot.files) :=
  ⟨⟨rfl, rfl⟩, (scan_folder_error_iff goodRoot Engine.ScanMode.strict).2 rfl rfl⟩

/-- C10: `formatSize` returns "0 B" for zero bytes; for `1 ≤ b < 1024^4`
the computed index is the floor base-1024 logarithm, lies inside the unit
array `["B", "KB", "MB", "GB"]`, and scales `b` into `[1, 1024)`; for
`b ≥ 1024^4` the index falls outside the array, so the rendered unit is
the out-of-bounds (undefined) element, modelled as `none`. -/
theorem formatSize_unit_selection :
    App.formatSizeUnit 0 = some "B" ∧
    (∀ b : Nat, 1 ≤ b → b < 1024 ^ 4 →
      App.sizeUnitIndex b < App.formatSizeUnits.length ∧
      1024 ^ App.sizeUnitIndex b ≤ b ∧
      b < 1024 ^ (App.sizeUnitIndex b + 1) ∧
      App.formatSizeUnit b = App.formatSizeUnits[App.sizeUnitIndex b]? ∧
      (App.formatSizeUnit b).isSome = true) ∧
    (∀ b : Nat, 1024 ^ 4 ≤ b →
      App.formatSizeUnits.length ≤ App.sizeUnitIndex b ∧
      App.formatSizeUnit b = none) := by
  refine ⟨rfl, ?_, ?_⟩
  · intro b hb1 hb4
    have hb0 : b ≠ 0 := by omega
    have hidx : App.sizeUnitIndex b < 4 :=
      Nat.log_lt_of_lt_pow hb0 hb4
    have hlen : App.formatSizeUnits.length = 4 := rfl
    have hfu : App.formatSizeUnit b = App.formatSizeUnits[App.sizeUnitIndex b]? := by
      unfold App.formatSizeUnit
      rw [if_neg hb0]
    refine ⟨by omega, Nat.pow_log_le_self 1024 hb0,
      Nat.lt_pow_succ_log_self (by norm_num) b, hfu, ?_⟩
    rw [hfu, List.getElem?_eq_getElem (by omega)]
    rfl
  · intro b hb
    have hb0 : b ≠ 0 := by
      intro h
      rw [h] at hb
      exact absurd hb (by norm_num)
    have hidx : 4 ≤ App.sizeUnitIndex b :=
      (Nat.pow_le_iff_le_log (by norm_num) hb0).mp hb
    have hlen : App.formatSizeUnits.length = 4 := rfl
    refine ⟨by omega, ?_⟩
    unfold App.formatSizeUnit
    rw [if_neg hb0, List.getElem?_eq_none (by omega)]

/-- C10 witness: one megabyte selects index 2 ("MB") inside the array with
the right scaling window, via the main theorem at `b = 1048576`. -/
theorem formatSize_unit_selection_witness :
    ((1 : Nat) ≤ 1048576 ∧ (1048576 : Nat) < 1024 ^ 4) ∧
    (App.sizeUnitIndex 1048576 < App.formatSizeUnits.length ∧
      1024 ^ App.sizeUnitIndex 1048576 ≤ 1048576 ∧
      1048576 < 1024 ^ (App.sizeUnitIndex 1048576 + 1) ∧
      App.formatSizeUnit 1048576 = App.formatSizeUnits[App.sizeUnitIndex 1048576]? ∧
      (App.formatSizeUnit 1048576).isSome = true) :=
  ⟨⟨by norm_num, by norm_num⟩,
    formatSize_unit_selection.2.1 1048576 (by norm_num) (by norm_num)⟩

/-- C2: in size-only mode every returned group carries the sentinel digest
and consists of all scanned files of its size, any two distinct scanned
files of equal size land in a common group regardless of content, and the
whole result is independent of file contents (no hashing happens: replacing
every content arbitrarily only replaces the content fields inside the
otherwise unchanged groups). -/
theorem size_only_groups_by_size (files : List Engine.FileRecord) :
    (∀ g ∈ Engine.scanSizeOnly files,
      g.digest = Engine.Digest.sentinel ∧
      g.files = (files.filter fun f => f.size = g.size)) ∧
    (∀ f1 f2 : Engine.FileRecord, f1 ∈ files → f2 ∈ files → f1 ≠ f2 →
      f1.size = f2.size →
      ∃ g ∈ Engine.scanSizeOnly files, f1 ∈ g.files ∧ f2 ∈ g.files) ∧
    (∀ c : String → Option (List Nat),
      Engine.scanSizeOnly (files.map (Engine.withContent c)) =
        (Engine.scanSizeOnly files).map (Engine.groupWithContent c)) := by
  refine ⟨?_, ?_, ?_⟩
  · intro g hg
    exact ⟨(mem_scanSizeOnly hg).1, (mem_scanSizeOnly hg).2.1⟩
  · intro f1 f2 h1 h2 hne hsz
    have hs : f1.size ∈ Engine.sizeKeys files := by
      simp only [Engine.sizeKeys, List.mem_dedup, List.mem_map]
      exact ⟨f1, h1, rfl⟩
    have hf1b : f1 ∈ Engine.bucketFor files f1.size := by
      simp [Engine.bucketFor, List.mem_filter, h1]
    have hf2b : f2 ∈ Engine.bucketFor files f1.size := by
      simp [Engine.bucketFor, List.mem_filter, h2, hsz]
    have hlen : 2 ≤ (Engine.bucketFor files f1.size).length :=
      two_le_length_of_mem_ne hf1b hf2b hne
    refine ⟨⟨Engine.Digest.sentinel, f1.size, Engine.bucketFor files f1.size⟩,
      ?_, hf1b, hf2b⟩
    simp only [Engine.scanSizeOnly, List.mem_filterMap]
    exact ⟨f1.size, hs, by simp only [Engine.sizeOnlyGroup]; rw [if_pos hlen]⟩
  · intro c
    simp only [Engine.scanSizeOnly, sizeKeys_withContent, List.map_filterMap]
    congr 1
    funext s
    rw [sizeOnlyGroup_withContent]

/-- C2 witness: in the §8 scenario, `a.txt` and `c.txt` differ in content
but share a size, and the size-only scan puts them in one group. -/
theorem size_only_groups_by_size_witness :
    (fileA ∈ scenarioFiles ∧ fileC ∈ scenarioFiles ∧ fileA ≠ fileC ∧
      fileA.size = fileC.size) ∧
    ∃ g ∈ Engine.scanSizeOnly scenarioFiles, fileA ∈ g.files ∧ fileC ∈ g.files :=
  ⟨⟨by decide, by decide, by decide, rfl⟩,
    (size_only_groups_by_size scenarioFiles).2.1 fileA fileC
      (by decide) (by decide) (by decide) rfl⟩

/-- C3: every group a scan returns has at least two members, all of the
group's size, and in full-accuracy mode every member's content hashes to
the group's digest; and the frontend's post-deletion update (remove deleted
paths, drop groups left under two files) preserves the display invariant. -/
theorem duplicate_group_invariant :
    (∀ (files : List Engine.FileRecord) (g : Engine.DuplicateGroup),
      g ∈ Engine.scanStrict files →
      2 ≤ g.files.length ∧
      (∀ f ∈ g.files, f.size = g.size) ∧
      (∀ f ∈ g.files, ∃ c, f.content = some c ∧
        Engine.hashContent c = g.digest)) ∧
    (∀ (files : List Engine.FileRecord) (g : Engine.DuplicateGroup),
      g ∈ Engine.scanSizeOnly files →
      2 ≤ g.files.length ∧ ∀ f ∈ g.files, f.size = g.size) ∧
    (∀ (strict : Bool) (groups : List App.DuplicateGroup)
        (deletedPaths : List String),
      (∀ g ∈ groups, App.GroupInv strict g) →
      ∀ g ∈ App.updateGroupsAfterDelete groups deletedPaths,
        App.GroupInv strict g) := by
  refine ⟨?_, ?_, ?_⟩
  · intro files g hg
    rcases mem_scanStrict hg with ⟨hlen, hmem⟩
    exact ⟨hlen, fun f hf => (hmem f hf).2.1, fun f hf => (hmem f hf).2.2⟩
  · intro files g hg
    rcases mem_scanSizeOnly hg with ⟨_, hfiles, hlen⟩
    refine ⟨hlen, ?_⟩
    intro f hf
    rw [hfiles] at hf
    simpa using (List.mem_filter.mp hf).2
  · intro strict groups deletedPaths hinv g hg
    simp only [App.updateGroupsAfterDelete, List.mem_filter, List.mem_map] at hg
    rcases hg with ⟨⟨g0, hg0, rfl⟩, hlen⟩
    refine ⟨by simpa using hlen, ?_⟩
    intro f hf
    have hf0 : f ∈ g0.files := (List.mem_filter.mp hf).1
    exact (hinv g0 hg0).2 f hf0

/-- C3 witness: a concrete wire group satisfying the invariant still
satisfies it after a member is deleted and the update is applied. -/
theorem duplicate_group_invariant_witness :
    (∀ g ∈ [wireGroup], App.GroupInv true g) ∧
    ∀ g ∈ App.updateGroupsAfterDelete [wireGroup] ["/root/a.txt"],
      App.GroupInv true g :=
  ⟨by decide, duplicate_group_invariant.2.2 true [wireGroup] ["/root/a.txt"]
    (by decide)⟩

/-- C9: `selectAllButOne` is the pure per-group selection composed over the
groups; groups with fewer than two files contribute nothing; and in every
group of at least two files the kept index is the first index of maximum
size, the selection is exactly the file list with that index erased, and
its length is one less than the group's — so exactly one file per group is
left unselected. -/
theorem selectAllButOne_keeps_first_largest (groups : List App.DuplicateGroup) :
    (App.selectAllButOne groups = groups.flatMap App.selectGroupPaths) ∧
    (∀ g : App.DuplicateGroup, g.files.length ≤ 1 →
      App.selectGroupPaths g = []) ∧
    (∀ g : App.DuplicateGroup, 1 < g.files.length →
      App.maxSizeFileIndex g.files < g.files.length ∧
      (∀ j < g.files.length,
        App.sizeAt g.files j ≤ App.sizeAt g.files (App.maxSizeFileIndex g.files)) ∧
      (∀ j < App.maxSizeFileIndex g.files,
        App.sizeAt g.files j < App.sizeAt g.files (App.maxSizeFileIndex g.files)) ∧
      App.selectGroupPaths g =
        ((g.files.eraseIdx (App.maxSizeFileIndex g.files)).map fun f => f.path) ∧
      (App.selectGroupPaths g).length = g.files.length - 1) := by
  refine ⟨rfl, ?_, ?_⟩
  · intro g hg
    unfold App.selectGroupPaths
    rw [if_neg (by omega)]
  · intro g hg
    rcases maxSizeFileIndex_spec g.files (by omega) with ⟨hlt, hub, hst⟩
    have hsel : App.selectGroupPaths g =
        ((g.files.eraseIdx (App.maxSizeFileIndex g.files)).map fun f => f.path) := by
      unfold App.selectGroupPaths
      rw [if_pos hg, selectExcept_le _ g.files 0 (Nat.zero_le _), Nat.sub_zero]
    refine ⟨hlt, hub, hst, hsel, ?_⟩
    rw [hsel, List.length_map, List.length_eraseIdx]
    rw [if_pos hlt]

/-- C9 witness: in a concrete four-file group with sizes 5, 9, 9, 3 the
kept index is 1 (the first size-9 file) and the other three paths are
selected. -/
theorem selectAllButOne_keeps_first_largest_witness :
    (1 : Nat) < mixedGroup.files.length ∧
    (App.maxSizeFileIndex mixedGroup.files < mixedGroup.files.length ∧
      (∀ j < mixedGroup.files.length,
        App.sizeAt mixedGroup.files j ≤
          App.sizeAt mixedGroup.files (App.maxSizeFileIndex mixedGroup.files)) ∧
      (∀ j < App.maxSizeFileIndex mixedGroup.files,
        App.sizeAt mixedGroup.files j <
          App.sizeAt mixedGroup.files (App.maxSizeFileIndex mixedGroup.files)) ∧
      App.selectGroupPaths mixedGroup =
        ((mixedGroup.files.eraseIdx
          (App.maxSizeFileIndex mixedGroup.files)).map fun f => f.path) ∧
      (App.selectGroupPaths mixedGroup).length = mixedGroup.files.length - 1) :=
  ⟨by decide,
    (selectAllButOne_keeps_first_largest []).2.2 mixedGroup (by decide)⟩

/-- C1: under the size-content consistency invariant, a full-accuracy scan
puts any two distinct scanned files with byte-identical content into one
common group (their names play no role), and two files whose contents
differ — even when their sizes match — never share a returned group. -/
theorem strict_scan_content_grouping (files : List Engine.FileRecord)
    (hwf : ∀ f ∈ files, Engine.sizeConsistent f = true) :
    (∀ f1 f2 : Engine.FileRecord, f1 ∈ files → f2 ∈ files → f1 ≠ f2 →
      ∀ c : List Nat, f1.content = some c → f2.content = some c →
        ∃ g ∈ Engine.scanStrict files, f1 ∈ g.files ∧ f2 ∈ g.files) ∧
    (∀ (f1 f2 : Engine.FileRecord) (c1 c2 : List Nat),
      f1.content = some c1 → f2.content = some c2 →
      f1.size = f2.size → c1 ≠ c2 →
      ∀ g ∈ Engine.scanStrict files, ¬ (f1 ∈ g.files ∧ f2 ∈ g.files)) := by
  constructor
  · intro f1 f2 h1 h2 hne c hc1 hc2
    have hsz1 : f1.size = c.length := by
      have := hwf f1 h1
      unfold Engine.sizeConsistent at this
      rw [hc1] at this
      simpa using this
    have hsz2 : f2.size = c.length := by
      have := hwf f2 h2
      unfold Engine.sizeConsistent at this
      rw [hc2] at this
      simpa using this
    have hsz : f2.size = f1.size := by omega
    have hs : f1.size ∈ Engine.sizeKeys files := by
      simp only [Engine.sizeKeys, List.mem_dedup, List.mem_map]
      exact ⟨f1, h1, rfl⟩
    have hf1b : f1 ∈ Engine.bucketFor files f1.size := by
      simp [Engine.bucketFor, List.mem_filter, h1]
    have hf2b : f2 ∈ Engine.bucketFor files f1.size := by
      simp [Engine.bucketFor, List.mem_filter, h2, hsz]
    have hblen : 2 ≤ (Engine.bucketFor files f1.size).length :=
      two_le_length_of_mem_ne hf1b hf2b hne
    set hashed := Engine.hashBucket (Engine.bucketFor files f1.size) with hhashed
    have hp1 : (Engine.hashContent c, f1) ∈ hashed := by
      rw [hhashed]
      simp only [Engine.hashBucket, List.mem_filterMap]
      exact ⟨f1, hf1b, by rw [hc1]; rfl⟩
    have hp2 : (Engine.hashContent c, f2) ∈ hashed := by
      rw [hhashed]
      simp only [Engine.hashBucket, List.mem_filterMap]
      exact ⟨f2, hf2b, by rw [hc2]; rfl⟩
    have hd : Engine.hashContent c ∈ Engine.digestKeys hashed := by
      simp only [Engine.digestKeys, List.mem_dedup, List.mem_map]
      exact ⟨(Engine.hashContent c, f1), hp1, rfl⟩
    set members := ((hashed.filter fun p => p.1 = Engine.hashContent c).map
      Prod.snd) with hmembers
    have hm1 : f1 ∈ members := by
      rw [hmembers]
      simp only [List.mem_map, List.mem_filter]
      exact ⟨(Engine.hashContent c, f1), ⟨hp1, by simp⟩, rfl⟩
    have hm2 : f2 ∈ members := by
      rw [hmembers]
      simp only [List.mem_map, List.mem_filter]
      exact ⟨(Engine.hashContent c, f2), ⟨hp2, by simp⟩, rfl⟩
    have hmlen : 2 ≤ members.length := two_le_length_of_mem_ne hm1 hm2 hne
    refine ⟨⟨Engine.hashContent c, f1.size, members⟩, ?_, hm1, hm2⟩
    simp only [Engine.scanStrict, List.mem_flatMap]
    refine ⟨f1.size, hs, ?_⟩
    simp only [Engine.strictGroupsAt]
    rw [if_pos hblen]
    simp only [Engine.regroupByDigest, List.mem_filterMap]
    refine ⟨Engine.hashContent c, hd, ?_⟩
    simp only [Engine.digestGroup]
    rw [← hhashed, ← hmembers, if_pos hmlen]
  · intro f1 f2 c1 c2 hc1 hc2 _ hcne g hg ⟨hin1, hin2⟩
    rcases mem_scanStrict hg with ⟨_, hmem⟩
    rcases (hmem f1 hin1).2.2 with ⟨d1, hd1, hh1⟩
    rcases (hmem f2 hin2).2.2 with ⟨d2, hd2, hh2⟩
    rw [hc1] at hd1
    rw [hc2] at hd2
    cases hd1
    cases hd2
    apply hcne
    have : Engine.hashContent c1 = Engine.hashContent c2 := hh1.trans hh2.symm
    simpa [Engine.hashContent] using this

/-- C1 witness: in the §8 scenario the full-accuracy scan groups the two
"hi" files, discharging the consistency hypothesis concretely. -/
theorem strict_scan_content_grouping_witness :
    (∀ f ∈ scenarioFiles, Engine.sizeConsistent f = true) ∧
    ∃ g ∈ Engine.scanStrict scenarioFiles, fileA ∈ g.files ∧ fileB ∈ g.files :=
  ⟨by decide,
    (strict_scan_content_grouping scenarioFiles (by decide)).1 fileA fileB
      (by decide) (by decide) (by decide) [104, 105] rfl rfl⟩

/-- C6: scanning is deterministic up to internal ordering — any two walker
enumerations of the same unmodified tree (permutations of one another,
since the walker's emission order is unspecified) produce, in either mode,
results with identical group membership; running the same scan twice is
the special case of the identity permutation. -/
theorem scan_idempotent_membership (mode : Engine.ScanMode)
    (l₁ l₂ : List Engine.FileRecord) (h : l₁.Perm l₂) :
    Engine.scanMembership (Engine.runScan mode l₁) =
      Engine.scanMembership (Engine.runScan mode l₂) := by
  have hkeys : (Engine.sizeKeys l₁).Perm (Engine.sizeKeys l₂) := (h.map _).dedup
  apply Multiset.coe_eq_coe.mpr
  cases mode with
  | strict =>
    show ((Engine.scanStrict l₁).map Engine.groupMembers).Perm
      ((Engine.scanStrict l₂).map Engine.groupMembers)
    simp only [Engine.scanStrict, List.map_flatMap]
    exact (List.Perm.flatMap_left _ fun s _ => strictGroupsAt_perm h s).trans
      (hkeys.flatMap_right _)
  | sizeOnly =>
    show ((Engine.scanSizeOnly l₁).map Engine.groupMembers).Perm
      ((Engine.scanSizeOnly l₂).map Engine.groupMembers)
    simp only [Engine.scanSizeOnly]
    exact filterMap_groupMembers_perm _ _ hkeys fun s => sizeOnlyGroup_perm h s

/-- C6 witness: the scenario file list and its reversal — a concrete
permutation — give identical strict-scan membership. -/
theorem scan_idempotent_membership_witness :
    scenarioFiles.Perm scenarioFiles.reverse ∧
    Engine.scanMembership (Engine.runScan Engine.ScanMode.strict scenarioFiles) =
      Engine.scanMembership
        (Engine.runScan Engine.ScanMode.strict scenarioFiles.reverse) :=
  ⟨by decide,
    scan_idempotent_membership Engine.ScanMode.strict scenarioFiles
      scenarioFiles.reverse (by decide)⟩

/-- C7: on any directory graph — symbolic-link cycles included — the File
Walker is a total function whose output lists each directory at most once;
when the file paths across the tree are distinct it reports every file at
most once, and erasing the unreadable entries (which are skipped, never
fatal) leaves the walk unchanged. -/
theorem walker_cycle_safe (fs : Nat → List Engine.Entry) (n : Nat)
    (hp : (Engine.allTreePaths fs n).Nodup) :
    ((Engine.walk fs n).map fun f => f.path).Nodup ∧
    Engine.walk (Engine.stripUnreadable fs) n = Engine.walk fs n := by
  constructor
  · rcases walkAux_structure fs n ∅ [0] with ⟨ds, hnodup, hmem, heq⟩
    rw [Engine.walk, heq, List.map_flatMap]
    have hsub : ds ⊆ List.range n := fun d hd => List.mem_range.mpr (hmem d hd).1
    rcases hnodup.subperm hsub with ⟨l, hl, hls⟩
    have hperm : (l.flatMap fun d => (Engine.dirFiles fs d).map fun f => f.path).Perm
        (ds.flatMap fun d => (Engine.dirFiles fs d).map fun f => f.path) :=
      hl.flatMap_right _
    have hsubl := sublist_flatMap_local
      (fun d => (Engine.dirFiles fs d).map fun f => f.path) hls
    have hbig : ((List.range n).flatMap
        fun d => (Engine.dirFiles fs d).map fun f => f.path).Nodup := hp
    exact hperm.nodup (hsubl.nodup hbig)
  · exact walkAux_strip fs n ∅ [0]

/-- C7 witness: a concrete tree whose two directories link to each other in
a cycle — the walk still terminates with each file reported once, and the
unreadable entry is skipped without effect. -/
theorem walker_cycle_safe_witness :
    (Engine.allTreePaths cyclicFs 2).Nodup ∧
    (((Engine.walk cyclicFs 2).map fun f => f.path).Nodup ∧
      Engine.walk (Engine.stripUnreadable cyclicFs) 2 = Engine.walk cyclicFs 2) :=
  ⟨by decide, walker_cycle_safe cyclicFs 2 (by decide)⟩
